import Mathlib

/-!
Verification development for the OpenRCT2 "Persistence" library
(`src/JsonFileSystem.ts`): a virtual file system of folders and files,
stored as a nested tree of JSON objects in a host key-value store.

JavaScript strings are modelled as `List Char`.  The code's name codec
(`escape`, `replaceAll`, `encode`, `decode`), the path algebra
(`getParent`, `getChild`) and the tree operations (`createFolder`,
`createFile`, `delete'`, `copy`, `move`, `rename`, `setData`) are
translated directly from the source.  The backing store
(`context.sharedStorage`, supplied by the host) is modelled from the
spec's interface contract; see `elemGet` / `elemSet` below.
-/

/-- JavaScript string, as a list of characters. -/
abbrev JStr : Type := List Char

/-- Source `escape(char)`: prepend the escape character, `"\\" + char`. -/
def escapeC (c : JStr) : JStr := '\\' :: c

/-- Worker for `splitOnJS` with explicit fuel (`fuel` starts at the text
length and bounds the recursion; it is never exhausted in real calls). -/
def splitOnJSAux (sep : List Char) : Nat → List Char → List (List Char)
  | _, [] => [[]]
  | 0, l => [l]
  | fuel + 1, c :: cs =>
    if !sep.isEmpty && sep.isPrefixOf (c :: cs) then
      [] :: splitOnJSAux sep fuel ((c :: cs).drop sep.length)
    else
      match splitOnJSAux sep fuel cs with
      | [] => [[c]]
      | s :: ss => (c :: s) :: ss

/-- JavaScript `text.split(search)` for a non-empty `search` string:
leftmost, non-overlapping matches.  (The source only ever splits on the
non-empty strings `"\\"`, `"."`, `"/"`, `"\\\\"`, `"\\d"`, `"\\s"`.) -/
def splitOnJS (sep text : List Char) : List (List Char) :=
  splitOnJSAux sep text.length text

/-- Source `replaceAll(text, search, replacement)`:
`text.split(search).join(replacement)`. -/
def replaceAll (text search replacement : JStr) : JStr :=
  List.intercalate replacement (splitOnJS search text)

/-- Source `encode(text)`: empty name becomes the lone escape character;
otherwise double every escape character, then `.` → `\d`, `/` → `\s`. -/
def encode (text : JStr) : JStr :=
  if text = [] then escapeC []
  else
    let t1 := replaceAll text (escapeC []) (escapeC (escapeC []))
    let t2 := replaceAll t1 ['.'] (escapeC ['d'])
    let t3 := replaceAll t2 ['/'] (escapeC ['s'])
    t3

/-- Source `decode(text)`: the lone escape character becomes the empty
name; otherwise `\s` → `/`, then `\d` → `.`, then halve doubled escapes. -/
def decode (text : JStr) : JStr :=
  if text = escapeC [] then []
  else
    let t1 := replaceAll text (escapeC ['s']) ['/']
    let t2 := replaceAll t1 (escapeC ['d']) ['.']
    let t3 := replaceAll t2 (escapeC (escapeC [])) (escapeC [])
    t3

/-- A path string of the file system (e.g. `""`, `".a"`, `".a.b"`). -/
abbrev FPath : Type := List Char

/-- Index of the last occurrence of a character, JavaScript
`string.lastIndexOf`; `none` plays the role of `-1`. -/
def lastIndexOf (ch : Char) : List Char → Option Nat
  | [] => none
  | x :: xs =>
    match lastIndexOf ch xs with
    | some i => some (i + 1)
    | none => if x = ch then some 0 else none

/-- Source `getParent(path)`: slice before the last `.`; `undefined`
(here `none`) when the path contains no `.`. -/
def getParent (p : FPath) : Option FPath :=
  match lastIndexOf '.' p with
  | none => none
  | some i => some (p.take i)

/-- Source `getChild(parent, name)`: `parent + "." + encode(name)`. -/
def getChild (parent : FPath) (name : JStr) : FPath :=
  parent ++ '.' :: encode name

/-- A stored JSON object of the engine's tree, as the host's nested
key-value store holds it.  Engine-written nodes are
`{type:"folder", files:{...}}` (`tag = some true`) or
`{type:"file", content:c}` (`tag = some false`); the raw store can also
produce plain objects without a `type` tag (`tag = none`) when a deep
`set` materializes missing intermediate keys, and can attach a `files`
field to a file object the same way.  `files` is an association list in
property order. -/
inductive Node (T : Type) : Type where
  | mk (tag : Option Bool) (content : Option T) (files : Option (List (List Char × Node T)))

/-- The `type` tag of a stored object (`some true` = `"folder"`,
`some false` = `"file"`, `none` = no tag). -/
def Node.tag {T : Type} : Node T → Option Bool
  | .mk t _ _ => t

/-- The `content` field of a stored object. -/
def Node.content {T : Type} : Node T → Option T
  | .mk _ c _ => c

/-- The `files` field of a stored object. -/
def Node.files {T : Type} : Node T → Option (List (List Char × Node T))
  | .mk _ _ f => f

/-- The empty folder node the source writes: `{type:"folder", files:{}}`. -/
def folderNode {T : Type} : Node T := .mk (some true) none (some [])

/-- A file node the source writes: `{type:"file", content:t}`. -/
def fileNode {T : Type} (t : T) : Node T := .mk (some false) (some t) none

/-- The plain object `{}` a deep store `set` creates for a missing
intermediate key. -/
def blankNode {T : Type} : Node T := .mk none none none

/-- First value bound to a key in an association list (JS property read). -/
def lookupN {T : Type} (k : List Char) : List (List Char × Node T) → Option (Node T)
  | [] => none
  | (k', v) :: rest => if k' = k then some v else lookupN k rest

/-- Bind a key in an association list: overwrite in place if present
(keeping property order), else append (JS property write). -/
def insertN {T : Type} (k : List Char) (v : Node T) : List (List Char × Node T) → List (List Char × Node T)
  | [] => [(k, v)]
  | (k', v') :: rest => if k' = k then (k, v) :: rest else (k', v') :: insertN k v rest

/-- Remove a key from an association list (JS property delete). -/
def eraseN {T : Type} (k : List Char) : List (List Char × Node T) → List (List Char × Node T)
  | [] => []
  | (k', v) :: rest => if k' = k then eraseN k rest else (k', v) :: eraseN k rest

/-- Modelled from the spec: the host's `sharedStorage.get` (absent from
`src/`), specified in section 6 as a tree-shaped key-value store
addressed by dot-joined keys.  Reading a key descends through the
`files` dictionaries of the stored objects, one name per step (the
engine's `getKey` inserts a `files` component before every name);
a missing step yields `undefined` (`none`). -/
def elemGet {T : Type} : Option (Node T) → List (List Char) → Option (Node T)
  | e, [] => e
  | none, _ :: _ => none
  | some n, s :: rest => elemGet (lookupN s (n.files.getD [])) rest

/-- Modelled from the spec: the host's `sharedStorage.set` (absent from
`src/`), section 6: `set(key, value | none)`, where `none` removes the
key and its subtree.  A deep write materializes missing intermediate
objects (`blankNode`) and missing `files` dictionaries, as the host's
nested JSON store does. -/
def elemSet {T : Type} : Option (Node T) → List (List Char) → Option (Node T) → Option (Node T)
  | _, [], v => v
  | e, s :: rest, v =>
    let base := e.getD blankNode
    let d := base.files.getD []
    let d' :=
      match elemSet (lookupN s d) rest v with
      | none => eraseN s d
      | some c => insertN s c d
    some (.mk base.tag base.content (some d'))

mutual
/-- Source `deepCopy(element)`: a file is rebuilt from its content; any
other object is rebuilt as a folder whose `files` are copied
recursively (`Object.keys(folder.files).forEach`). -/
def deepCopy {T : Type} : Node T → Node T
  | .mk tag content files =>
    if tag = some false then .mk (some false) content none
    else .mk (some true) none (some (deepCopyFilesOpt files))

/-- `deepCopy` over an absent-or-present `files` dictionary. -/
def deepCopyFilesOpt {T : Type} : Option (List (List Char × Node T)) → List (List Char × Node T)
  | none => []
  | some l => deepCopyFiles l

/-- `deepCopy` over the entries of a `files` dictionary. -/
def deepCopyFiles {T : Type} : List (List Char × Node T) → List (List Char × Node T)
  | [] => []
  | (k, v) :: rest => (k, deepCopy v) :: deepCopyFiles rest
end

/-- State of one `JsonFileSystem` instance: the stored object at the
namespace key (`none` when nothing was written yet) together with the
sequence of paths passed to `setElement`, i.e. the watcher
notifications fired so far, in order. -/
structure FS (T : Type) : Type where
  root : Option (Node T)
  log : List FPath

/-- The empty backing store: nothing under the namespace, no
notifications fired. -/
def emptyFS {T : Type} : FS T := { root := none, log := [] }

/-- The name segments a path contributes to the storage key: source
`getKey` turns path `".a.b"` into `namespace + ".files.a.files.b"`, so
after the namespace prefix the store descends by `files`, then a name,
alternatingly — i.e. by the dot-separated segments of the path, root
(`""`) contributing none.  (Faithful for the root path and for paths
starting with `.`, the only paths the path algebra produces.)
`splitOnChar` is the single-character split of the key. -/
def splitOnChar (c : Char) : List Char → List (List Char)
  | [] => [[]]
  | x :: xs =>
    match splitOnChar c xs with
    | [] => [[]]
    | s :: ss => if x = c then [] :: s :: ss else (x :: s) :: ss

def segs (p : FPath) : List (List Char) :=
  (splitOnChar '.' p).drop 1

/-- Source `setElement(path, element)`: write through the store at the
path's key, then notify every watcher with the path
(`this.watchers.forEach(watcher => watcher(path))`). -/
def setElement {T : Type} (st : FS T) (p : FPath) (v : Option (Node T)) : FS T :=
  { root := elemSet st.root (segs p) v, log := st.log ++ [p] }

/-- Source `exists(path)`: `has(getKey(path))`, presence under the key. -/
def existsB {T : Type} (st : FS T) (p : FPath) : Bool :=
  (elemGet st.root (segs p)).isSome

/-- Source `isFolder(path)`: exists, and the stored object's `type` tag
is `"folder"`. -/
def isFolder {T : Type} (st : FS T) (p : FPath) : Bool :=
  if !existsB st p then false
  else
    match elemGet st.root (segs p) with
    | none => false
    | some e => e.tag = some true

/-- Source `isFile(path)`: exists, and the stored object's `type` tag
is `"file"`. -/
def isFile {T : Type} (st : FS T) (p : FPath) : Bool :=
  if !existsB st p then false
  else
    match elemGet st.root (segs p) with
    | none => false
    | some e => e.tag = some false

/-- Source `getData(path)`: `undefined` unless a file; otherwise
`element && element.content`. -/
def getData {T : Type} (st : FS T) (p : FPath) : Option T :=
  if !isFile st p then none
  else (elemGet st.root (segs p)).bind (fun e => e.content)

theorem lastIndexOf_lt (ch : Char) : ∀ (l : List Char) (i : Nat), lastIndexOf ch l = some i → i < l.length
  | [], _, h => by simp [lastIndexOf] at h
  | x :: xs, i, h => by
    rw [lastIndexOf] at h
    cases hxs : lastIndexOf ch xs with
    | some j =>
      rw [hxs] at h
      obtain rfl : j + 1 = i := by simpa using h
      exact Nat.succ_lt_succ (lastIndexOf_lt ch xs j hxs)
    | none =>
      rw [hxs] at h
      by_cases hx : x = ch
      · obtain rfl : 0 = i := by simpa [hx] using h
        simp
      · simp [hx] at h

theorem getParent_length {p q : FPath} (h : getParent p = some q) : q.length < p.length := by
  unfold getParent at h
  cases hli : lastIndexOf '.' p with
  | none => rw [hli] at h; cases h
  | some i =>
    rw [hli] at h
    obtain rfl : q = p.take i := by simpa using h.symm
    have hip := lastIndexOf_lt '.' p i hli
    simp only [List.length_take]
    omega

/-- Source `createFolder(path)`: fail if something exists at the path;
otherwise create the parent first when it is a non-empty string
(`parent && this.createFolder(parent)` — the empty root path is falsy
and is skipped), then write an empty folder node. -/
def createFolder {T : Type} (st : FS T) (p : FPath) : Bool × FS T :=
  if existsB st p then (false, st)
  else
    let st1 :=
      match h : getParent p with
      | none => st
      | some par => if par = [] then st else (createFolder st par).2
    (true, setElement st1 p (some folderNode))
termination_by p.length
decreasing_by exact getParent_length h

/-- Source `createFile(path, content)`: fail if something exists at the
path; otherwise create the parent first when it is a non-empty string,
then write a file node with the content. -/
def createFile {T : Type} (st : FS T) (p : FPath) (t : T) : Bool × FS T :=
  if existsB st p then (false, st)
  else
    let st1 :=
      match getParent p with
      | none => st
      | some par => if par = [] then st else (createFolder st par).2
    (true, setElement st1 p (some (fileNode t)))

/-- Source `delete(path)`: fail if nothing exists at the path;
otherwise write `undefined` through the store (removing the key and its
subtree). -/
def delete' {T : Type} (st : FS T) (p : FPath) : Bool × FS T :=
  if !existsB st p then (false, st)
  else (true, setElement st p none)

/-- Source `copy(src, dst)`: fail if `src` is absent or `dst` present;
otherwise read the element at `src` and write its `deepCopy` at `dst`. -/
def copy {T : Type} (st : FS T) (src dst : FPath) : Bool × FS T :=
  if !existsB st src || existsB st dst then (false, st)
  else
    match elemGet st.root (segs src) with
    | none => (false, st)
    | some e => (true, setElement st dst (some (deepCopy e)))

/-- JavaScript `haystack.indexOf(needle) !== -1`: the needle occurs as
a contiguous substring of the haystack (an empty needle always does). -/
def isSubstringOf (needle : List Char) : List Char → Bool
  | [] => needle.isEmpty
  | c :: cs => needle.isPrefixOf (c :: cs) || isSubstringOf needle cs

/-- Source `move(src, dst)`: refuse when `src` is a folder and the raw
string `src` occurs inside the raw string `dst`
(`dst.indexOf(src) !== -1`); otherwise `copy(src, dst) && delete(src)`
with JavaScript short-circuiting. -/
def move {T : Type} (st : FS T) (src dst : FPath) : Bool × FS T :=
  if isFolder st src && isSubstringOf src dst then (false, st)
  else
    let r := copy st src dst
    if r.1 then delete' r.2 src else (false, r.2)

/-- Source `rename(path, name)`: `parent !== undefined &&
move(path, getChild(parent, name))`. -/
def rename {T : Type} (st : FS T) (p : FPath) (name : JStr) : Bool × FS T :=
  match getParent p with
  | none => (false, st)
  | some par => move st p (getChild par name)

/-- Source `setData(path, content)`: fail unless a file is at the path;
otherwise write a fresh file node with the content. -/
def setData {T : Type} (st : FS T) (p : FPath) (t : T) : Bool × FS T :=
  if !isFile st p then (false, st)
  else (true, setElement st p (some (fileNode t)))

/-- The watcher invocations caused by a list of fired paths: for each
fired path, every registered watcher (identified by its registration
index, in registration order) is called once with that path —
`this.watchers.forEach(watcher => watcher(path))` in `setElement`. -/
def watcherCalls (watchers : List Nat) (fired : List FPath) : List (Nat × FPath) :=
  fired.flatMap (fun p => watchers.map (fun w => (w, p)))

theorem elemGet_none {T : Type} (l : List (List Char)) :
    elemGet (none : Option (Node T)) l = none := by
  cases l <;> rfl

theorem elemGet_append {T : Type} (l1 l2 : List (List Char)) (e : Option (Node T)) :
    elemGet e (l1 ++ l2) = elemGet (elemGet e l1) l2 := by
  induction l1 generalizing e with
  | nil => simp [elemGet]
  | cons s rest ih =>
    cases e with
    | none => simp [elemGet, elemGet_none]
    | some n => simp [elemGet, ih]

theorem elemGet_isSome_of_append {T : Type} {l1 l2 : List (List Char)} {e : Option (Node T)}
    (h : (elemGet e (l1 ++ l2)).isSome = true) : (elemGet e l1).isSome = true := by
  rw [elemGet_append] at h
  cases hx : elemGet e l1 with
  | none => rw [hx, elemGet_none] at h; cases h
  | some n => rfl

theorem lookupN_insertN_self {T : Type} (k : List Char) (v : Node T)
    (d : List (List Char × Node T)) : lookupN k (insertN k v d) = some v := by
  induction d with
  | nil => simp [insertN, lookupN]
  | cons p rest ih =>
    obtain ⟨k0, v0⟩ := p
    by_cases hk : k0 = k
    · simp [insertN, hk, lookupN]
    · simp [insertN, hk, lookupN, ih]

theorem lookupN_insertN_ne {T : Type} {k' k : List Char} (hne : k' ≠ k) (v : Node T)
    (d : List (List Char × Node T)) : lookupN k' (insertN k v d) = lookupN k' d := by
  have hne' : ¬ (k = k') := fun h => hne h.symm
  induction d with
  | nil => simp [insertN, lookupN, hne']
  | cons p rest ih =>
    obtain ⟨k0, v0⟩ := p
    by_cases hk : k0 = k
    · subst hk
      simp [insertN, lookupN, hne']
    · simp [insertN, hk, lookupN, ih]

theorem lookupN_eraseN_self {T : Type} (k : List Char) (d : List (List Char × Node T)) :
    lookupN k (eraseN k d) = none := by
  induction d with
  | nil => simp [eraseN, lookupN]
  | cons p rest ih =>
    obtain ⟨k0, v0⟩ := p
    by_cases hk : k0 = k
    · simpa [eraseN, hk] using ih
    · simpa [eraseN, lookupN, hk] using ih

theorem lookupN_eraseN_ne {T : Type} {k' k : List Char} (hne : k' ≠ k)
    (d : List (List Char × Node T)) : lookupN k' (eraseN k d) = lookupN k' d := by
  induction d with
  | nil => simp [eraseN, lookupN]
  | cons p rest ih =>
    obtain ⟨k0, v0⟩ := p
    by_cases hk : k0 = k
    · have h2 : ¬ (k0 = k') := fun h => hne (h ▸ hk)
      have h3 : ¬ (k = k') := fun h => hne h.symm
      simpa [eraseN, lookupN, hk, h2, h3] using ih
    · by_cases hk' : k0 = k'
      · simp [eraseN, lookupN, hk, hk', hne]
      · simpa [eraseN, lookupN, hk, hk'] using ih

theorem elemSet_eq_none {T : Type} {e : Option (Node T)} {l : List (List Char)}
    {v : Option (Node T)} (h : elemSet e l v = none) : l = [] ∧ v = none := by
  cases l with
  | nil => exact ⟨rfl, h⟩
  | cons s rest => simp [elemSet] at h

theorem elemSet_cons {T : Type} (e : Option (Node T)) (s : List Char)
    (rest : List (List Char)) (v : Option (Node T)) :
    elemSet e (s :: rest) v =
      some (.mk (e.getD blankNode).tag (e.getD blankNode).content
        (some (match elemSet (lookupN s ((e.getD blankNode).files.getD [])) rest v with
          | none => eraseN s ((e.getD blankNode).files.getD [])
          | some x => insertN s x ((e.getD blankNode).files.getD [])))) := rfl

theorem elemGet_cons_some {T : Type} (n : Node T) (s : List Char) (rest : List (List Char)) :
    elemGet (some n) (s :: rest) = elemGet (lookupN s (n.files.getD [])) rest := rfl

/-- Reading at a prefix of a written path sees the write applied to the
old value at that prefix. -/
theorem elemGet_elemSet_append {T : Type} (c : List (List Char)) :
    ∀ (w : List (List Char)) (e v : Option (Node T)),
      elemGet (elemSet e (c ++ w) v) c = elemSet (elemGet e c) w v := by
  induction c with
  | nil => intro w e v; simp [elemGet]
  | cons s c' ih =>
    intro w e v
    set b := lookupN s ((e.getD blankNode).files.getD []) with hb
    have hrhs : elemGet e (s :: c') = elemGet b c' := by
      cases e with
      | none => simp [elemGet, elemGet_none, hb, lookupN]
      | some n => simp [elemGet, hb]
    rw [List.cons_append, elemSet_cons, hrhs]
    cases hset : elemSet b (c' ++ w) v with
    | none =>
      obtain ⟨hcw, hv⟩ := elemSet_eq_none hset
      obtain ⟨hc, hw⟩ := List.append_eq_nil.mp hcw
      subst hc; subst hw; subst hv
      simp only [List.nil_append] at hset
      rw [elemGet_cons_some]
      simp only [Node.files, Option.getD_some, hset]
      simp only [lookupN_eraseN_self]
      rfl
    | some x =>
      rw [elemGet_cons_some]
      simp only [Node.files, Option.getD_some, hset, lookupN_insertN_self]
      rw [← hset, ih]

/-- Reading back exactly at the written path yields the written value. -/
theorem elemGet_elemSet_self {T : Type} (w : List (List Char)) (e v : Option (Node T)) :
    elemGet (elemSet e w v) w = v := by
  have h := elemGet_elemSet_append w [] e v
  simpa using h

theorem Node.tag_mk {T : Type} (t : Option Bool) (c : Option T)
    (f : Option (List (List Char × Node T))) : (Node.mk t c f).tag = t := rfl

theorem Node.content_mk {T : Type} (t : Option Bool) (c : Option T)
    (f : Option (List (List Char × Node T))) : (Node.mk t c f).content = c := rfl

theorem Node.files_mk {T : Type} (t : Option Bool) (c : Option T)
    (f : Option (List (List Char × Node T))) : (Node.mk t c f).files = f := rfl

theorem elemGet_cons_any {T : Type} (e : Option (Node T)) (s : List Char)
    (rest : List (List Char)) :
    elemGet e (s :: rest) = elemGet (lookupN s ((e.getD blankNode).files.getD [])) rest := by
  cases e with
  | none => simp [elemGet_none, blankNode, Node.files_mk, lookupN]
  | some n => rw [elemGet_cons_some]; rfl

/-- Frame rule: a write at a path that diverges from the read path (a
different name right after the common prefix) does not affect the read. -/
theorem elemGet_elemSet_diverge {T : Type} (c : List (List Char)) :
    ∀ {a b : List Char} (q w : List (List Char)) (e v : Option (Node T)), a ≠ b →
      elemGet (elemSet e (c ++ b :: w) v) (c ++ a :: q) = elemGet e (c ++ a :: q) := by
  induction c with
  | nil =>
    intro a b q w e v hab
    simp only [List.nil_append]
    rw [elemSet_cons, elemGet_cons_some]
    simp only [Node.files_mk, Option.getD_some]
    rw [elemGet_cons_any e]
    cases hset : elemSet (lookupN b ((e.getD blankNode).files.getD [])) w v with
    | none => simp only [hset]; rw [lookupN_eraseN_ne hab]
    | some y => simp only [hset]; rw [lookupN_insertN_ne hab]
  | cons s c' ih =>
    intro a b q w e v hab
    simp only [List.cons_append]
    rw [elemSet_cons, elemGet_cons_some]
    simp only [Node.files_mk, Option.getD_some]
    rw [elemGet_cons_any e]
    cases hset : elemSet (lookupN s ((e.getD blankNode).files.getD [])) (c' ++ b :: w) v with
    | none =>
      obtain ⟨hcw, -⟩ := elemSet_eq_none hset
      exact absurd hcw (by simp)
    | some x =>
      simp only [hset, lookupN_insertN_self]
      rw [← hset, ih q w _ v hab]

/-- How two paths relate: equal, one extends the other, or they diverge
at a first differing name after a common prefix. -/
theorem pathRel {α : Type} : ∀ (q w : List α),
    q = w ∨ (∃ d, d ≠ [] ∧ w = q ++ d) ∨ (∃ d, d ≠ [] ∧ q = w ++ d) ∨
    (∃ c a b q' w', a ≠ b ∧ q = c ++ a :: q' ∧ w = c ++ b :: w') := by
  intro q
  induction q with
  | nil =>
    intro w
    cases w with
    | nil => exact Or.inl rfl
    | cons x xs => exact Or.inr (Or.inl ⟨x :: xs, by simp, rfl⟩)
  | cons a q' ih =>
    intro w
    cases w with
    | nil => exact Or.inr (Or.inr (Or.inl ⟨a :: q', by simp, rfl⟩))
    | cons b w' =>
      by_cases hab : a = b
      · subst hab
        rcases ih w' with h | ⟨d, hd, rfl⟩ | ⟨d, hd, rfl⟩ | ⟨c, x, y, q0, w0, hxy, hq, hw⟩
        · exact Or.inl (by rw [h])
        · exact Or.inr (Or.inl ⟨d, hd, rfl⟩)
        · exact Or.inr (Or.inr (Or.inl ⟨d, hd, rfl⟩))
        · exact Or.inr (Or.inr (Or.inr ⟨a :: c, x, y, q0, w0, hxy, by rw [hq]; rfl,
            by rw [hw]; rfl⟩))
      · exact Or.inr (Or.inr (Or.inr ⟨[], a, b, q', w', hab, rfl, rfl⟩))

/-- A write at a currently-missing path preserves the presence, tag and
content of every node that exists beforehand. -/
theorem elemSet_preserves {T : Type} {e : Option (Node T)} {w : List (List Char)}
    (hw : elemGet e w = none) (v : Option (Node T)) :
    ∀ (l : List (List Char)) (n : Node T), elemGet e l = some n →
      ∃ n', elemGet (elemSet e w v) l = some n' ∧ n'.tag = n.tag ∧ n'.content = n.content := by
  intro l n hl
  rcases pathRel l w with rfl | ⟨d, hd, rfl⟩ | ⟨d, hd, rfl⟩ | ⟨c, a, b, q', w', hab, rfl, rfl⟩
  · rw [hl] at hw; cases hw
  · rw [elemGet_elemSet_append, hl]
    cases d with
    | nil => exact absurd rfl hd
    | cons s rest =>
      rw [elemSet_cons]
      exact ⟨_, rfl, rfl, rfl⟩
  · rw [elemGet_append, hw, elemGet_none] at hl; cases hl
  · rw [elemGet_elemSet_diverge c q' w' e v hab, hl]
    exact ⟨n, rfl, rfl, rfl⟩

theorem existsB_eq_isSome {T : Type} (st : FS T) (p : FPath) :
    existsB st p = (elemGet st.root (segs p)).isSome := rfl

theorem setElement_root {T : Type} (st : FS T) (p : FPath) (v : Option (Node T)) :
    (setElement st p v).root = elemSet st.root (segs p) v := rfl

theorem setElement_log {T : Type} (st : FS T) (p : FPath) (v : Option (Node T)) :
    (setElement st p v).log = st.log ++ [p] := rfl

theorem isFolder_eq {T : Type} (st : FS T) (p : FPath) :
    isFolder st p = (match elemGet st.root (segs p) with
      | none => false
      | some e => e.tag = some true) := by
  unfold isFolder existsB
  cases h : elemGet st.root (segs p) with
  | none => simp [h]
  | some e => simp [h]

theorem isFile_eq {T : Type} (st : FS T) (p : FPath) :
    isFile st p = (match elemGet st.root (segs p) with
      | none => false
      | some e => e.tag = some false) := by
  unfold isFile existsB
  cases h : elemGet st.root (segs p) with
  | none => simp [h]
  | some e => simp [h]

theorem delete_result {T : Type} (st : FS T) (p : FPath) :
    (delete' st p).1 = existsB st p := by
  unfold delete'
  cases h : existsB st p <;> simp [h]

theorem delete_fail {T : Type} {st : FS T} {p : FPath} (h : existsB st p = false) :
    delete' st p = (false, st) := by
  unfold delete'
  simp [h]

theorem delete_succ {T : Type} {st : FS T} {p : FPath} (h : existsB st p = true) :
    delete' st p = (true, setElement st p none) := by
  unfold delete'
  simp [h]

theorem copy_result {T : Type} (st : FS T) (src dst : FPath) :
    (copy st src dst).1 = (existsB st src && !existsB st dst) := by
  unfold copy
  cases hs : existsB st src with
  | false => simp [hs]
  | true =>
    cases hd : existsB st dst with
    | true => simp [hs, hd]
    | false =>
      simp only [hs, hd, Bool.not_false, Bool.false_or, Bool.and_true]
      cases hg : elemGet st.root (segs src) with
      | none =>
        rw [existsB_eq_isSome, hg] at hs
        cases hs
      | some e => simp

theorem copy_fail {T : Type} {st : FS T} {src dst : FPath}
    (h : (copy st src dst).1 = false) : (copy st src dst).2 = st := by
  unfold copy at h ⊢
  cases hc : (!existsB st src || existsB st dst) with
  | true => simp [hc]
  | false =>
    simp only [hc, Bool.false_eq_true, if_false] at h ⊢
    cases hg : elemGet st.root (segs src) with
    | none => simp [hg]
    | some e => simp [hg] at h

theorem copy_succ {T : Type} {st : FS T} {src dst : FPath}
    (h : (copy st src dst).1 = true) :
    existsB st src = true ∧ existsB st dst = false ∧
      ∃ e, elemGet st.root (segs src) = some e ∧
        (copy st src dst).2 = setElement st dst (some (deepCopy e)) := by
  rw [copy_result] at h
  obtain ⟨hs, hd⟩ := Bool.and_eq_true_iff.mp h
  refine ⟨hs, by simpa using hd, ?_⟩
  cases hg : elemGet st.root (segs src) with
  | none => rw [existsB_eq_isSome, hg] at hs; cases hs
  | some e =>
    refine ⟨e, rfl, ?_⟩
    unfold copy
    have hd' : existsB st dst = false := by simpa using hd
    simp [hs, hd', hg]

/-- After a successful copy the source still exists (so the `delete`
half of `move` cannot fail). -/
theorem copy_succ_src_exists {T : Type} {st : FS T} {src dst : FPath}
    (h : (copy st src dst).1 = true) : existsB (copy st src dst).2 src = true := by
  obtain ⟨hs, hd, e, hg, hst⟩ := copy_succ h
  rw [hst, existsB_eq_isSome, setElement_root]
  rcases pathRel (segs src) (segs dst) with heq | ⟨d, hdne, hss⟩ | ⟨d, hdne, hss⟩ |
      ⟨c, a, b, q', w', hab, hq, hw⟩
  · rw [existsB_eq_isSome, ← heq, hg] at hd
    cases hd
  · rw [hss, elemGet_elemSet_append]
    cases d with
    | nil => exact absurd rfl hdne
    | cons s rest => rw [elemSet_cons]; rfl
  · rw [existsB_eq_isSome] at hs hd
    rw [hss] at hs
    rw [elemGet_isSome_of_append hs] at hd
    cases hd
  · rw [hq, hw, elemGet_elemSet_diverge c q' w' _ _ hab, ← hq]
    rw [existsB_eq_isSome] at hs
    exact hs

theorem move_fail_unchanged {T : Type} {st : FS T} {src dst : FPath}
    (h : (move st src dst).1 = false) : (move st src dst).2 = st := by
  unfold move at h ⊢
  cases hguard : (isFolder st src && isSubstringOf src dst) with
  | true => simp [hguard]
  | false =>
    simp only [hguard, Bool.false_eq_true, if_false] at h ⊢
    cases hc : (copy st src dst).1 with
    | false => simp [hc, copy_fail hc]
    | true =>
      have hex := copy_succ_src_exists hc
      simp only [hc, if_true] at h
      rw [delete_result] at h
      rw [hex] at h
      cases h

theorem rename_fail_unchanged {T : Type} {st : FS T} {p : FPath} {nm : JStr}
    (h : (rename st p nm).1 = false) : (rename st p nm).2 = st := by
  unfold rename at h ⊢
  cases hp : getParent p with
  | none => simp [hp]
  | some par =>
    simp only [hp] at h ⊢
    exact move_fail_unchanged h

theorem setData_fail {T : Type} {st : FS T} {p : FPath} {t : T}
    (h : (setData st p t).1 = false) : (setData st p t).2 = st := by
  unfold setData at h ⊢
  cases hf : isFile st p with
  | false => simp [hf]
  | true => simp [hf] at h

theorem createFolder_fail {T : Type} {st : FS T} {p : FPath}
    (h : (createFolder st p).1 = false) : (createFolder st p).2 = st := by
  unfold createFolder at h ⊢
  cases he : existsB st p with
  | true => simp [he]
  | false => simp [he] at h

theorem createFile_fail {T : Type} {st : FS T} {p : FPath} {t : T}
    (h : (createFile st p t).1 = false) : (createFile st p t).2 = st := by
  unfold createFile at h ⊢
  cases he : existsB st p with
  | true => simp [he]
  | false => simp [he] at h

theorem delete_fail_unchanged {T : Type} {st : FS T} {p : FPath}
    (h : (delete' st p).1 = false) : (delete' st p).2 = st := by
  rw [delete_result] at h
  rw [delete_fail h]

/-- C1: the codec does not round-trip: for the two-character name
`"\s"` (escape character followed by `s`), `decode (encode x)` yields
`"\/"`, not `x` — the `\s → /` pass of `decode` misreads the second
half of a doubled escape character as an escape sequence. -/
theorem C1_roundtrip_fails :
    decode (encode ['\\', 's']) = ['\\', '/'] ∧
    encode ['\\', 's'] = ['\\', '\\', 's'] ∧
    decode (encode ['\\', 's']) ≠ ['\\', 's'] := by
  refine ⟨by decide, by decide, by decide⟩

/-- Concrete store for C2: the engine's tree holds a single folder
`".a"` under the root folder. -/
def st2w : FS Nat :=
  { root := some (.mk (some true) none (some [(['a'], folderNode)])), log := [] }

/-- C2: `move` diverges from the claim: with folder `".a"` and sibling
destination `".ab"` (segments `["a"]` vs `["ab"]`, so `dst` is not in
`src`'s subtree), `move` returns failure and changes nothing — the raw
substring test `dst.indexOf(src) !== -1` fires — although
`copy(src, dst)` would succeed and the subsequent `delete(src)` would
succeed as well. -/
theorem C2_move_guard_divergence :
    isFolder st2w ['.', 'a'] = true ∧
    segs ['.', 'a'] = [['a']] ∧
    segs ['.', 'a', 'b'] = [['a', 'b']] ∧
    (move st2w ['.', 'a'] ['.', 'a', 'b']).1 = false ∧
    (move st2w ['.', 'a'] ['.', 'a', 'b']).2 = st2w ∧
    (copy st2w ['.', 'a'] ['.', 'a', 'b']).1 = true ∧
    (delete' (copy st2w ['.', 'a'] ['.', 'a', 'b']).2 ['.', 'a']).1 = true := by
  refine ⟨by decide, by decide, by decide, by decide, rfl, by decide, by decide⟩

/-- Concrete store for C3: a file `".a"` under the root folder. -/
def st3w : FS Nat :=
  { root := some (.mk (some true) none (some [(['a'], fileNode 0)])), log := [] }

/-- C3: the ancestor-chain invariant is not preserved: starting from a
store holding only the file `".a"` under the root, `createFile` at
`".a.b"` succeeds and afterwards `".a.b"` exists while its immediate
ancestor `".a"` is still a file, not a folder. -/
theorem C3_invariant_violated :
    (createFile st3w ['.', 'a', '.', 'b'] 1).1 = true ∧
    existsB (createFile st3w ['.', 'a', '.', 'b'] 1).2 ['.', 'a', '.', 'b'] = true ∧
    isFile (createFile st3w ['.', 'a', '.', 'b'] 1).2 ['.', 'a'] = true ∧
    isFolder (createFile st3w ['.', 'a', '.', 'b'] 1).2 ['.', 'a'] = false := by
  have hcf : createFolder st3w ['.', 'a'] = (false, st3w) := by
    unfold createFolder
    rw [if_pos (show existsB st3w ['.', 'a'] = true from by decide)]
  have h2 : createFile st3w ['.', 'a', '.', 'b'] 1 =
      (true, setElement st3w ['.', 'a', '.', 'b'] (some (fileNode 1))) := by
    unfold createFile
    rw [if_neg (show ¬ existsB st3w ['.', 'a', '.', 'b'] = true from by decide)]
    rw [show getParent ['.', 'a', '.', 'b'] = some ['.', 'a'] from by decide]
    simp only [hcf]
    rw [if_neg (show ¬ (['.', 'a'] : FPath) = [] from by decide)]
  rw [h2]
  refine ⟨rfl, by decide, by decide, by decide⟩

/-- C4: whenever an operation reports failure it leaves the state (the
stored tree and the notification log) exactly as it was.  This holds
for every operation and every starting state with no exception: in
`move`'s compound `copy(src,dst) && delete(src)`, the `delete` cannot
fail after a successful `copy` (`copy_succ_src_exists`), so the
claim's carve-out for that case is never exercised. -/
theorem C4_failure_leaves_state_unchanged {T : Type} (st : FS T) (p src dst : FPath)
    (nm : JStr) (t : T) :
    ((createFolder st p).1 = false → (createFolder st p).2 = st) ∧
    ((createFile st p t).1 = false → (createFile st p t).2 = st) ∧
    ((delete' st p).1 = false → (delete' st p).2 = st) ∧
    ((copy st src dst).1 = false → (copy st src dst).2 = st) ∧
    ((move st src dst).1 = false → (move st src dst).2 = st) ∧
    ((rename st p nm).1 = false → (rename st p nm).2 = st) ∧
    ((setData st p t).1 = false → (setData st p t).2 = st) :=
  ⟨createFolder_fail, createFile_fail, delete_fail_unchanged, copy_fail,
    move_fail_unchanged, rename_fail_unchanged, setData_fail⟩

/-- Concrete store for the C4 witness: a file `".a"` under the root
folder. -/
def st4w : FS Nat :=
  { root := some (.mk (some true) none (some [(['a'], fileNode 5)])), log := [] }

theorem C4_witness :
    (createFolder st4w ['.', 'a']).2 = st4w ∧
    (createFile st4w ['.', 'a'] 9).2 = st4w ∧
    (delete' st4w ['.', 'b']).2 = st4w ∧
    (copy st4w ['.', 'b'] ['.', 'c']).2 = st4w ∧
    (move st4w ['.', 'b'] ['.', 'c']).2 = st4w ∧
    (rename st4w [] ['x']).2 = st4w ∧
    (setData st4w ['.', 'b'] 9).2 = st4w :=
  ⟨(C4_failure_leaves_state_unchanged st4w ['.', 'a'] ['.', 'b'] ['.', 'c'] ['x'] 9).1
      (by unfold createFolder; decide),
    (C4_failure_leaves_state_unchanged st4w ['.', 'a'] ['.', 'b'] ['.', 'c'] ['x'] 9).2.1
      (by decide),
    (C4_failure_leaves_state_unchanged st4w ['.', 'b'] ['.', 'b'] ['.', 'c'] ['x'] 9).2.2.1
      (by decide),
    (C4_failure_leaves_state_unchanged st4w ['.', 'a'] ['.', 'b'] ['.', 'c'] ['x'] 9).2.2.2.1
      (by decide),
    (C4_failure_leaves_state_unchanged st4w ['.', 'a'] ['.', 'b'] ['.', 'c'] ['x'] 9).2.2.2.2.1
      (by decide),
    (C4_failure_leaves_state_unchanged st4w [] ['.', 'b'] ['.', 'c'] ['x'] 9).2.2.2.2.2.1
      (by decide),
    (C4_failure_leaves_state_unchanged st4w ['.', 'b'] ['.', 'b'] ['.', 'c'] ['x'] 9).2.2.2.2.2.2
      (by decide)⟩

/-- C10: through the query interface a path is never a folder and a
file at once, and being a folder or a file implies existing. -/
theorem C10_type_exclusivity {T : Type} (st : FS T) (p : FPath) :
    ¬ (isFolder st p = true ∧ isFile st p = true) ∧
    (isFolder st p = true → existsB st p = true) ∧
    (isFile st p = true → existsB st p = true) := by
  rw [isFolder_eq, isFile_eq, existsB_eq_isSome]
  cases h : elemGet st.root (segs p) with
  | none => simp
  | some e =>
    simp only [Option.isSome_some]
    refine ⟨?_, fun _ => trivial, fun _ => trivial⟩
    rintro ⟨h1, h2⟩
    simp only [decide_eq_true_eq] at h1 h2
    rw [h1] at h2
    cases h2

/-- Concrete store for the C10 witness: a file `".a"` under the root
folder. -/
def st10w : FS Nat :=
  { root := some (.mk (some true) none (some [(['a'], fileNode 5)])), log := [] }

theorem C10_witness :
    existsB st10w [] = true ∧ existsB st10w ['.', 'a'] = true ∧
    ¬ (isFolder st10w ['.', 'a'] = true ∧ isFile st10w ['.', 'a'] = true) :=
  ⟨(C10_type_exclusivity st10w []).2.1 (by decide),
    (C10_type_exclusivity st10w ['.', 'a']).2.2 (by decide),
    (C10_type_exclusivity st10w ['.', 'a']).1⟩

/-- C6: `delete` fails exactly when the path does not exist; on success
the path and every path whose segments extend its segments (its former
descendants) no longer exist, and exactly one watcher notification,
carrying the deleted path, is fired. -/
theorem C6_delete_semantics {T : Type} (st : FS T) (p : FPath) :
    ((delete' st p).1 = existsB st p) ∧
    (existsB st p = true →
      existsB (delete' st p).2 p = false ∧
      (∀ q l, l ≠ [] → segs q = segs p ++ l → existsB (delete' st p).2 q = false) ∧
      ((delete' st p).2).log = st.log ++ [p]) := by
  refine ⟨delete_result st p, fun h => ?_⟩
  rw [delete_succ h]
  refine ⟨?_, ?_, rfl⟩
  · rw [existsB_eq_isSome, setElement_root, elemGet_elemSet_self]
    rfl
  · intro q l _ hq
    rw [existsB_eq_isSome, setElement_root, hq, elemGet_append, elemGet_elemSet_self,
      elemGet_none]
    rfl

/-- Concrete store for the C6 witness: folder `".a"` holding file
`".a.b"`, under the root folder. -/
def st6w : FS Nat :=
  { root := some (.mk (some true) none
      (some [(['a'], .mk (some true) none (some [(['b'], fileNode 3)]))])), log := [] }

theorem C6_witness :
    existsB (delete' st6w ['.', 'a']).2 ['.', 'a'] = false ∧
    existsB (delete' st6w ['.', 'a']).2 ['.', 'a', '.', 'b'] = false ∧
    ((delete' st6w ['.', 'a']).2).log = st6w.log ++ [['.', 'a']] :=
  ⟨((C6_delete_semantics st6w ['.', 'a']).2 (by decide)).1,
    ((C6_delete_semantics st6w ['.', 'a']).2 (by decide)).2.1 ['.', 'a', '.', 'b'] [['b']]
      (by decide) (by decide),
    ((C6_delete_semantics st6w ['.', 'a']).2 (by decide)).2.2⟩

/-- C8: `rename` returns failure leaving the state unchanged when the
path has no parent (in particular for the root path, for every name),
and otherwise returns exactly the result and state of the `move` to
the sibling path `getChild parent name`. -/
theorem C8_rename_delegates {T : Type} (st : FS T) (p : FPath) (nm : JStr) :
    (getParent p = none → rename st p nm = (false, st)) ∧
    (∀ par, getParent p = some par → rename st p nm = move st p (getChild par nm)) ∧
    rename st ([] : FPath) nm = (false, st) := by
  refine ⟨?_, ?_, rfl⟩
  · intro h; unfold rename; rw [h]
  · intro par h; unfold rename; rw [h]

/-- Concrete store for the C8 witness: a file `".a"` under the root
folder. -/
def st8w : FS Nat :=
  { root := some (.mk (some true) none (some [(['a'], fileNode 5)])), log := [] }

theorem C8_witness :
    rename st8w ['a'] ['b'] = (false, st8w) ∧
    rename st8w ['.', 'a'] ['b'] = move st8w ['.', 'a'] (getChild [] ['b']) ∧
    rename st8w ([] : FPath) ['b'] = (false, st8w) :=
  ⟨(C8_rename_delegates st8w ['a'] ['b']).1 (by decide),
    (C8_rename_delegates st8w ['.', 'a'] ['b']).2.1 [] (by decide),
    (C8_rename_delegates st8w [] ['b']).2.2⟩

mutual
/-- Engine-shaped stored objects: a folder node whose children are all
engine-shaped, or a file node holding content — exactly the shapes
`createFolder`, `createFile` and `setData` write. -/
def wfNode {T : Type} : Node T → Bool
  | .mk (some true) none (some l) => wfFiles l
  | .mk (some false) (some _) none => true
  | .mk _ _ _ => false

/-- `wfNode` for every entry of a `files` dictionary. -/
def wfFiles {T : Type} : List (List Char × Node T) → Bool
  | [] => true
  | (_, v) :: rest => wfNode v && wfFiles rest
end

mutual
theorem deepCopy_wf {T : Type} : ∀ (n : Node T), wfNode n = true → deepCopy n = n
  | .mk (some true) none (some l), h => by
    have hl : wfFiles l = true := h
    show Node.mk (some true) none (some (deepCopyFiles l)) = .mk (some true) none (some l)
    rw [deepCopyFiles_wf l hl]
  | .mk (some false) (some t) none, _ => rfl
  | .mk none c f, h => Bool.noConfusion h
  | .mk (some true) none none, h => Bool.noConfusion h
  | .mk (some true) (some c) f, h => Bool.noConfusion h
  | .mk (some false) none f, h => Bool.noConfusion h
  | .mk (some false) (some c) (some l), h => Bool.noConfusion h

theorem deepCopyFiles_wf {T : Type} : ∀ (l : List (List Char × Node T)),
    wfFiles l = true → deepCopyFiles l = l
  | [], _ => rfl
  | (k, v) :: rest, h => by
    have h2 : (wfNode v && wfFiles rest) = true := h
    rw [Bool.and_eq_true] at h2
    show (k, deepCopy v) :: deepCopyFiles rest = (k, v) :: rest
    rw [deepCopy_wf v h2.1, deepCopyFiles_wf rest h2.2]
end

/-- C7: `copy` fails exactly when the source is absent or the
destination present; on success the destination's key holds the
`deepCopy` of the source element (which on engine-shaped stores is the
element itself), one notification carrying `dst` is fired, and — as
long as `dst` is not inside `src`'s own subtree — a following
`delete src` succeeds and leaves `dst` holding the copied subtree while
`src` is gone. -/
theorem C7_copy_semantics {T : Type} (st : FS T) (src dst : FPath) :
    ((copy st src dst).1 = (existsB st src && !existsB st dst)) ∧
    ((copy st src dst).1 = true →
      ∃ e, elemGet st.root (segs src) = some e ∧
        elemGet ((copy st src dst).2).root (segs dst) = some (deepCopy e) ∧
        ((copy st src dst).2).log = st.log ++ [dst] ∧
        ((∀ l, l ≠ [] → segs dst ≠ segs src ++ l) →
          (delete' (copy st src dst).2 src).1 = true ∧
          elemGet ((delete' (copy st src dst).2 src).2).root (segs dst)
            = some (deepCopy e) ∧
          existsB (delete' (copy st src dst).2 src).2 dst = true ∧
          existsB (delete' (copy st src dst).2 src).2 src = false)) ∧
    (∀ n : Node T, wfNode n = true → deepCopy n = n) := by
  refine ⟨copy_result st src dst, fun hc => ?_, deepCopy_wf⟩
  obtain ⟨hs, hd, e, hg, hst⟩ := copy_succ hc
  refine ⟨e, hg, ?_, ?_, fun hnot => ?_⟩
  · rw [hst, setElement_root, elemGet_elemSet_self]
  · rw [hst, setElement_log]
  · have hex : existsB (copy st src dst).2 src = true := copy_succ_src_exists hc
    have hdel : delete' (copy st src dst).2 src =
        (true, setElement (copy st src dst).2 src none) := delete_succ hex
    have hread : elemGet ((delete' (copy st src dst).2 src).2).root (segs dst)
        = some (deepCopy e) := by
      rw [hdel]
      rw [setElement_root]
      rcases pathRel (segs dst) (segs src) with heq | ⟨d, hdne, hds⟩ | ⟨d, hdne, hds⟩ |
          ⟨c, a, b, q', w', hab, hq, hw⟩
      · rw [existsB_eq_isSome, heq, hg] at hd
        cases hd
      · rw [existsB_eq_isSome, hds] at hs
        have := elemGet_isSome_of_append hs
        rw [existsB_eq_isSome, this] at hd
        cases hd
      · exact absurd hds (hnot d hdne)
      · rw [hq, hw, elemGet_elemSet_diverge c q' w' _ _ hab, ← hq, hst,
          setElement_root, elemGet_elemSet_self]
    refine ⟨by rw [delete_result, hex], hread, ?_, ?_⟩
    · rw [existsB_eq_isSome, hread]
      rfl
    · rw [existsB_eq_isSome, hdel, setElement_root, elemGet_elemSet_self]
      rfl

/-- Concrete store for the C7 counterexample: a file `".a"` under the
root folder. -/
def st7c : FS Nat :=
  { root := some (.mk (some true) none (some [(['a'], fileNode 7)])), log := [] }

/-- C7 counterexample: with file `".a"` present, `copy(".a", ".a.b")`
succeeds (the destination sits inside the source's own subtree) and the
following `delete(".a")` also succeeds — but afterwards the destination
`".a.b"` does not exist, against the claim's promise that `dst` still
exists with the source's original content. -/
theorem C7_counterexample :
    (copy st7c ['.', 'a'] ['.', 'a', '.', 'b']).1 = true ∧
    (delete' (copy st7c ['.', 'a'] ['.', 'a', '.', 'b']).2 ['.', 'a']).1 = true ∧
    existsB (delete' (copy st7c ['.', 'a'] ['.', 'a', '.', 'b']).2 ['.', 'a']).2
      ['.', 'a', '.', 'b'] = false := by
  refine ⟨by decide, by decide, by decide⟩

/-- Concrete store for the C7 witness: a file `".a"` under the root
folder. -/
def st7w : FS Nat :=
  { root := some (.mk (some true) none (some [(['a'], fileNode 7)])), log := [] }

theorem C7_witness :
    (delete' (copy st7w ['.', 'a'] ['.', 'b']).2 ['.', 'a']).1 = true ∧
    existsB (delete' (copy st7w ['.', 'a'] ['.', 'b']).2 ['.', 'a']).2 ['.', 'b'] = true ∧
    existsB (delete' (copy st7w ['.', 'a'] ['.', 'b']).2 ['.', 'a']).2 ['.', 'a'] = false ∧
    ((copy st7w ['.', 'a'] ['.', 'b']).2).log = st7w.log ++ [['.', 'b']] := by
  obtain ⟨e, hg, hdst, hlog, hrest⟩ :=
    (C7_copy_semantics st7w ['.', 'a'] ['.', 'b']).2.1 (by decide)
  have hr := hrest (by
    intro l _ h
    simp only [show segs ['.', 'b'] = [['b']] from rfl,
      show segs ['.', 'a'] = [['a']] from rfl, List.cons_append, List.nil_append] at h
    injection h with h1 _
    exact absurd h1 (by decide))
  exact ⟨hr.1, hr.2.2.1, hr.2.2.2, hlog⟩

theorem getData_eq {T : Type} (st : FS T) (p : FPath) :
    getData st p = (match elemGet st.root (segs p) with
      | none => none
      | some e => if e.tag = some false then e.content else none) := by
  unfold getData
  rw [isFile_eq]
  cases h : elemGet st.root (segs p) with
  | none => simp [h]
  | some e =>
    by_cases ht : e.tag = some false
    · simp [h, ht]
    · simp [h, ht]

/-- Equal raw reads at a path give equal query results there. -/
theorem obs_of_elemGet_eq {T : Type} {st st' : FS T} {q : FPath}
    (h : elemGet st'.root (segs q) = elemGet st.root (segs q)) :
    existsB st' q = existsB st q ∧ isFolder st' q = isFolder st q ∧
    isFile st' q = isFile st q ∧ getData st' q = getData st q := by
  refine ⟨?_, ?_, ?_, ?_⟩
  · rw [existsB_eq_isSome, existsB_eq_isSome, h]
  · rw [isFolder_eq, isFolder_eq, h]
  · rw [isFile_eq, isFile_eq, h]
  · rw [getData_eq, getData_eq, h]

/-- Nodes with equal tag and content at a path give equal query
results there. -/
theorem obs_of_similar {T : Type} {st st' : FS T} {q : FPath} {n n' : Node T}
    (h : elemGet st.root (segs q) = some n) (h' : elemGet st'.root (segs q) = some n')
    (ht : n'.tag = n.tag) (hc : n'.content = n.content) :
    existsB st' q = existsB st q ∧ isFolder st' q = isFolder st q ∧
    isFile st' q = isFile st q ∧ getData st' q = getData st q := by
  refine ⟨?_, ?_, ?_, ?_⟩
  · rw [existsB_eq_isSome, existsB_eq_isSome, h, h']
    rfl
  · rw [isFolder_eq, isFolder_eq, h, h']
    simp [ht]
  · rw [isFile_eq, isFile_eq, h, h']
    simp [ht]
  · rw [getData_eq, getData_eq, h, h']
    simp [ht, hc]

/-- C9: `setData` fails exactly when the path is not currently a file;
on a file whose stored node is engine-shaped (no nested `files`
stowaways), success overwrites the content — `getData` then returns it
— changes no other path's query results, and fires exactly one
notification carrying the path, which reaches every registered watcher
once, in registration order, before the call returns. -/
theorem C9_setData_semantics {T : Type} (st : FS T) (p : FPath) (t : T) :
    ((setData st p t).1 = isFile st p) ∧
    (∀ e : Node T, elemGet st.root (segs p) = some e → e.tag = some false →
      e.files = none →
      getData (setData st p t).2 p = some t ∧
      (∀ q, segs q ≠ segs p →
        existsB (setData st p t).2 q = existsB st q ∧
        isFolder (setData st p t).2 q = isFolder st q ∧
        isFile (setData st p t).2 q = isFile st q ∧
        getData (setData st p t).2 q = getData st q) ∧
      ((setData st p t).2).log = st.log ++ [p] ∧
      (∀ ws : List Nat,
        watcherCalls ws ((((setData st p t).2).log).drop st.log.length)
          = ws.map (fun w => (w, p)))) := by
  constructor
  · unfold setData
    cases hf : isFile st p <;> simp [hf]
  · intro e hg htag hfiles
    have hf : isFile st p = true := by
      rw [isFile_eq, hg]
      simp [htag]
    have hset : setData st p t = (true, setElement st p (some (fileNode t))) := by
      unfold setData
      rw [hf]
      rfl
    have hroot : ((setData st p t).2).root = elemSet st.root (segs p) (some (fileNode t)) := by
      rw [hset, setElement_root]
    refine ⟨?_, ?_, ?_, ?_⟩
    · rw [getData_eq, hroot, elemGet_elemSet_self]
      rfl
    · intro q hq
      rcases pathRel (segs q) (segs p) with heq | ⟨d, hd, hqp⟩ | ⟨d, hd, hqp⟩ |
          ⟨c, a, b, q', w', hab, hq1, hq2⟩
      · exact absurd heq hq
      · -- q is a strict ancestor of p
        have hnq : ∃ nq, elemGet st.root (segs q) = some nq := by
          rw [hqp] at hg
          have := elemGet_isSome_of_append (by rw [hg]; rfl)
          cases hx : elemGet st.root (segs q) with
          | none => rw [hx] at this; cases this
          | some nq => exact ⟨nq, rfl⟩
        obtain ⟨nq, hnq⟩ := hnq
        have hpost : elemGet ((setData st p t).2).root (segs q)
            = elemSet (some nq) d (some (fileNode t)) := by
          rw [hroot, hqp, elemGet_elemSet_append, hnq]
        cases d with
        | nil => exact absurd rfl hd
        | cons s rest =>
          rw [elemSet_cons] at hpost
          exact obs_of_similar hnq hpost rfl rfl
      · -- q is a strict descendant of p: absent before and after
        have hpre : elemGet st.root (segs q) = none := by
          rw [hqp, elemGet_append, hg]
          cases d with
          | nil => exact absurd rfl hd
          | cons s rest =>
            rw [elemGet_cons_some, hfiles]
            simp [lookupN, elemGet_none]
        have hpost : elemGet ((setData st p t).2).root (segs q) = none := by
          rw [hroot, hqp, elemGet_append, elemGet_elemSet_self]
          cases d with
          | nil => exact absurd rfl hd
          | cons s rest =>
            rw [elemGet_cons_some]
            simp [fileNode, Node.files_mk, lookupN, elemGet_none]
        exact obs_of_elemGet_eq (by rw [hpre, hpost])
      · -- q diverges from p
        have : elemGet ((setData st p t).2).root (segs q) = elemGet st.root (segs q) := by
          rw [hroot, hq1, hq2, elemGet_elemSet_diverge c q' w' _ _ hab]
        exact obs_of_elemGet_eq this
    · rw [hset, setElement_log]
    · intro ws
      rw [hset, setElement_log, List.drop_left]
      unfold watcherCalls
      simp

/-- Concrete store for the C9 counterexample: the root folder holds
`".a"`, a file node that also carries a nested child `".a.b"` (the
shape `createFile(".a.b", 6)` produces after `".a"` already exists as a
file, cf. `C3_invariant_violated`). -/
def st9c : FS Nat :=
  { root := some (.mk (some true) none
      (some [(['a'], .mk (some false) (some 5) (some [(['b'], fileNode 6)]))])), log := [] }

/-- C9 counterexample: `setData(".a", 7)` succeeds but destroys the
node at the other path `".a.b"`, which existed before the call and does
not exist afterwards — against the claim that no other path's node
changes. -/
theorem C9_counterexample :
    (setData st9c ['.', 'a'] 7).1 = true ∧
    existsB st9c ['.', 'a', '.', 'b'] = true ∧
    existsB (setData st9c ['.', 'a'] 7).2 ['.', 'a', '.', 'b'] = false := by
  refine ⟨by decide, by decide, by decide⟩

/-- Concrete store for the C9 witness: a file `".a"` under the root
folder. -/
def st9w : FS Nat :=
  { root := some (.mk (some true) none (some [(['a'], fileNode 5)])), log := [] }

theorem C9_witness :
    getData (setData st9w ['.', 'a'] 7).2 ['.', 'a'] = some 7 ∧
    getData (setData st9w ['.', 'a'] 7).2 ['.', 'z'] = getData st9w ['.', 'z'] ∧
    ((setData st9w ['.', 'a'] 7).2).log = st9w.log ++ [['.', 'a']] ∧
    watcherCalls [0, 1] ((((setData st9w ['.', 'a'] 7).2).log).drop st9w.log.length)
      = [(0, ['.', 'a']), (1, ['.', 'a'])] := by
  obtain ⟨hdata, hframe, hlog, hcalls⟩ :=
    (C9_setData_semantics st9w ['.', 'a'] 7).2 (fileNode 5) rfl rfl rfl
  exact ⟨hdata, (hframe ['.', 'z'] (by decide)).2.2.2, hlog, hcalls [0, 1]⟩

theorem splitOnChar_ne_nil (c : Char) (l : List Char) : splitOnChar c l ≠ [] := by
  cases l with
  | nil => simp [splitOnChar]
  | cons x xs =>
    rw [splitOnChar]
    cases splitOnChar c xs with
    | nil => simp
    | cons s ss =>
      by_cases hx : x = c <;> simp [hx]

theorem splitOnChar_cons_of_eq (c : Char) (xs : List Char) :
    splitOnChar c (c :: xs) = [] :: splitOnChar c xs := by
  rw [splitOnChar]
  cases h : splitOnChar c xs with
  | nil => exact absurd h (splitOnChar_ne_nil c xs)
  | cons s ss => simp

theorem splitOnChar_cons_of_ne {c x : Char} (hx : x ≠ c) (xs : List Char) :
    ∀ s ss, splitOnChar c xs = s :: ss → splitOnChar c (x :: xs) = (x :: s) :: ss := by
  intro s ss h
  rw [splitOnChar, h]
  simp [hx]

theorem not_mem_of_mem_splitOnChar (c : Char) :
    ∀ (l : List Char) (s : List Char), s ∈ splitOnChar c l → c ∉ s := by
  intro l
  induction l with
  | nil =>
    intro s hs
    simp [splitOnChar] at hs
    simp [hs]
  | cons x xs ih =>
    intro s hs
    rw [splitOnChar] at hs
    cases h : splitOnChar c xs with
    | nil => exact absurd h (splitOnChar_ne_nil c xs)
    | cons t ts =>
      rw [h] at hs
      by_cases hx : x = c
      · simp only [hx, if_true] at hs
        rcases List.mem_cons.mp hs with rfl | hs2
        · simp
        · exact ih s (h ▸ hs2)
      · simp only [hx, if_false] at hs
        rcases List.mem_cons.mp hs with rfl | hs2
        · intro hmem
          rcases List.mem_cons.mp hmem with rfl | hmem2
          · exact hx rfl
          · exact ih t (h ▸ List.mem_cons_self t ts) hmem2
        · exact ih s (h ▸ List.mem_cons.mpr (Or.inr hs2))

theorem lastIndexOf_eq_none_iff (c : Char) : ∀ (l : List Char),
    lastIndexOf c l = none ↔ c ∉ l := by
  intro l
  induction l with
  | nil => simp [lastIndexOf]
  | cons x xs ih =>
    rw [lastIndexOf]
    cases h : lastIndexOf c xs with
    | some j =>
      have hmem : c ∈ xs := by
        by_contra hc
        rw [← ih, h] at hc
        cases hc
      simp only []
      constructor
      · intro hx; cases hx
      · intro hnot
        exact absurd (List.mem_cons.mpr (Or.inr hmem)) hnot
    | none =>
      have hxs : c ∉ xs := by rw [← ih, h]
      by_cases hx : x = c
      · subst hx
        simp [List.mem_cons]
      · have hx2 : ¬ (c = x) := fun hh => hx hh.symm
        simp [hx, List.mem_cons, hxs, hx2]

theorem splitOnChar_of_not_mem {c : Char} : ∀ {l : List Char}, c ∉ l →
    splitOnChar c l = [l] := by
  intro l
  induction l with
  | nil => intro _; rfl
  | cons x xs ih =>
    intro h
    have hx : x ≠ c := fun hh => h (hh ▸ List.mem_cons_self x xs)
    have hxs : c ∉ xs := fun hh => h (List.mem_cons.mpr (Or.inr hh))
    exact splitOnChar_cons_of_ne hx xs xs [] (ih hxs)

theorem two_le_splitOnChar_length {c : Char} : ∀ {l : List Char}, c ∈ l →
    2 ≤ (splitOnChar c l).length := by
  intro l
  induction l with
  | nil => intro h; cases h
  | cons x xs ih =>
    intro h
    by_cases hx : x = c
    · rw [hx, splitOnChar_cons_of_eq]
      cases hs : splitOnChar c xs with
      | nil => exact absurd hs (splitOnChar_ne_nil c xs)
      | cons s ss => simp
    · have hmem : c ∈ xs := by
        rcases List.mem_cons.mp h with hh | hh
        · exact absurd hh.symm hx
        · exact hh
      cases hs : splitOnChar c xs with
      | nil => exact absurd hs (splitOnChar_ne_nil c xs)
      | cons s ss =>
        rw [splitOnChar_cons_of_ne hx xs s ss hs]
        have h2 := ih hmem
        rw [hs] at h2
        simpa using h2

theorem dropLast_cons_ne_nil {α : Type} (a : α) {l : List α} (h : l ≠ []) :
    (a :: l).dropLast = a :: l.dropLast := by
  cases l with
  | nil => exact absurd rfl h
  | cons b t => rfl

theorem splitOnChar_take_lastIndexOf (c : Char) : ∀ (l : List Char) (i : Nat),
    lastIndexOf c l = some i →
    splitOnChar c (l.take i) = (splitOnChar c l).dropLast := by
  intro l
  induction l with
  | nil => intro i h; simp [lastIndexOf] at h
  | cons x xs ih =>
    intro i h
    rw [lastIndexOf] at h
    cases hxs : lastIndexOf c xs with
    | some j =>
      rw [hxs] at h
      obtain rfl : j + 1 = i := by simpa using h
      have hmem : c ∈ xs := by
        by_contra hc
        rw [← lastIndexOf_eq_none_iff, hxs] at hc
        cases hc
      have hlen := two_le_splitOnChar_length hmem
      rw [List.take_succ_cons]
      cases hsp : splitOnChar c xs with
      | nil => exact absurd hsp (splitOnChar_ne_nil c xs)
      | cons t ts =>
        have hts : ts ≠ [] := by
          rw [hsp] at hlen
          cases ts with
          | nil => simp at hlen
          | cons a b => simp
        have hih := ih j hxs
        rw [hsp] at hih
        rw [dropLast_cons_ne_nil t hts] at hih
        by_cases hx : x = c
        · rw [hx, splitOnChar_cons_of_eq, splitOnChar_cons_of_eq, hih, hsp,
            dropLast_cons_ne_nil _ (by simp), dropLast_cons_ne_nil t hts]
        · rw [splitOnChar_cons_of_ne hx _ _ _ hih,
            splitOnChar_cons_of_ne hx _ _ _ hsp,
            dropLast_cons_ne_nil _ hts]
    | none =>
      rw [hxs] at h
      have hnm : c ∉ xs := (lastIndexOf_eq_none_iff c xs).mp hxs
      by_cases hx : x = c
      · rw [if_pos hx] at h
        obtain rfl : (0 : Nat) = i := by simpa using h
        rw [List.take_zero, hx, splitOnChar_cons_of_eq, splitOnChar_of_not_mem hnm]
        rfl
      · rw [if_neg hx] at h
        cases h

/-- Paths produced by the path algebra: the root `""` or a path
starting with the delimiter `.`. -/
def Rooted (p : FPath) : Prop := p = [] ∨ ∃ q, p = '.' :: q

theorem segs_cons_dot (q : List Char) : segs ('.' :: q) = splitOnChar '.' q := by
  unfold segs
  rw [splitOnChar_cons_of_eq]
  rfl

theorem segs_ne_nil_of_rooted {p : FPath} (hr : Rooted p) (hp : p ≠ []) :
    segs p ≠ [] := by
  rcases hr with rfl | ⟨q, rfl⟩
  · exact absurd rfl hp
  · rw [segs_cons_dot]
    exact splitOnChar_ne_nil '.' q

theorem drop_one_dropLast {α : Type} : ∀ (l : List α),
    l.dropLast.drop 1 = (l.drop 1).dropLast := by
  intro l
  cases l with
  | nil => rfl
  | cons a t =>
    cases t with
    | nil => rfl
    | cons b t' =>
      rw [dropLast_cons_ne_nil a (by simp)]
      rfl

theorem getParent_rooted {p : FPath} (hr : Rooted p) (hp : p ≠ []) :
    ∃ par, getParent p = some par ∧ Rooted par ∧ segs par = (segs p).dropLast := by
  rcases hr with rfl | ⟨q, rfl⟩
  · exact absurd rfl hp
  · have hmem : '.' ∈ ('.' :: q) := List.mem_cons_self '.' q
    cases hli : lastIndexOf '.' ('.' :: q) with
    | none =>
      rw [lastIndexOf_eq_none_iff] at hli
      exact absurd hmem hli
    | some i =>
      refine ⟨('.' :: q).take i, by unfold getParent; rw [hli], ?_, ?_⟩
      · cases i with
        | zero => exact Or.inl rfl
        | succ j => exact Or.inr ⟨q.take j, by rw [List.take_succ_cons]⟩
      · unfold segs
        rw [splitOnChar_take_lastIndexOf '.' ('.' :: q) i hli]
        exact drop_one_dropLast (splitOnChar '.' ('.' :: q))

theorem dropLast_append_ne_nil {α : Type} : ∀ (l1 : List α) {l2 : List α}, l2 ≠ [] →
    (l1 ++ l2).dropLast = l1 ++ l2.dropLast := by
  intro l1
  induction l1 with
  | nil => intro l2 _; rfl
  | cons a t ih =>
    intro l2 h2
    rw [List.cons_append, dropLast_cons_ne_nil a (by simp [h2]), ih h2]
    rfl

theorem prefix_dropLast {α : Type} {l xs : List α} (h : l <+: xs) (hne : l ≠ xs) :
    l <+: xs.dropLast := by
  obtain ⟨t, rfl⟩ := h
  cases t with
  | nil => exact absurd (by simp) hne
  | cons a t' =>
    rw [dropLast_append_ne_nil l (by simp)]
    exact ⟨(a :: t').dropLast, rfl⟩

/-- Rebuild a rooted path from its segments: `"." ++ s` for each
segment, concatenated. -/
def joinSegs : List (List Char) → FPath
  | [] => []
  | s :: rest => '.' :: (s ++ joinSegs rest)

theorem splitOnChar_append_not_mem {c : Char} : ∀ {s : List Char}, c ∉ s →
    ∀ {r : List Char} {h : List Char} {tail : List (List Char)},
      splitOnChar c r = h :: tail → splitOnChar c (s ++ r) = (s ++ h) :: tail := by
  intro s
  induction s with
  | nil => intro _ r h tail hr; simpa using hr
  | cons x s' ih =>
    intro hmem r h tail hr
    have hx : x ≠ c := fun hh => hmem (hh ▸ List.mem_cons_self x s')
    have hs' : c ∉ s' := fun hh => hmem (List.mem_cons.mpr (Or.inr hh))
    rw [List.cons_append]
    exact splitOnChar_cons_of_ne hx _ _ _ (ih hs' hr)

theorem splitOnChar_joinSegs : ∀ {l : List (List Char)},
    (∀ s ∈ l, '.' ∉ s) → splitOnChar '.' (joinSegs l) = [] :: l := by
  intro l
  induction l with
  | nil => intro _; rfl
  | cons s rest ih =>
    intro h
    have hs : '.' ∉ s := h s (List.mem_cons_self s rest)
    have hrest := ih (fun t ht => h t (List.mem_cons.mpr (Or.inr ht)))
    rw [show joinSegs (s :: rest) = '.' :: (s ++ joinSegs rest) from rfl,
      splitOnChar_cons_of_eq,
      splitOnChar_append_not_mem hs hrest]
    simp

theorem segs_joinSegs {l : List (List Char)} (h : ∀ s ∈ l, '.' ∉ s) :
    segs (joinSegs l) = l := by
  unfold segs
  rw [splitOnChar_joinSegs h]
  rfl

theorem rooted_joinSegs (l : List (List Char)) : Rooted (joinSegs l) := by
  cases l with
  | nil => exact Or.inl rfl
  | cons s rest => exact Or.inr ⟨s ++ joinSegs rest, rfl⟩

theorem createFolder_eq {T : Type} (st : FS T) (p : FPath) :
    createFolder st p =
      if existsB st p then (false, st)
      else (true, setElement
        (match getParent p with
          | none => st
          | some par => if par = [] then st else (createFolder st par).2) p
        (some folderNode)) := by
  conv_lhs => unfold createFolder
  cases hgp : getParent p with
  | none => simp [hgp]
  | some par => simp [hgp]

theorem not_exists_elemGet {T : Type} {st : FS T} {p : FPath}
    (he : existsB st p = false) : elemGet st.root (segs p) = none := by
  cases hx : elemGet st.root (segs p) with
  | none => rfl
  | some nd =>
    rw [existsB_eq_isSome, hx] at he
    simp at he

/-- Full behaviour of `createFolder` on a rooted path: result is the
negated existence check; on success the path holds a fresh empty
folder; existing nodes keep their tag and content; missing strict
non-root ancestors are materialized as folders; and the notification
log grows by the materialized ancestors followed by the path itself. -/
theorem createFolder_spec {T : Type} : ∀ (n : Nat) (p : FPath), p.length < n →
    ∀ (st : FS T), Rooted p →
    ((createFolder st p).1 = !existsB st p) ∧
    ((createFolder st p).1 = true →
      elemGet ((createFolder st p).2).root (segs p) = some folderNode) ∧
    (∀ l (nd : Node T), elemGet st.root l = some nd →
      ∃ nd', elemGet ((createFolder st p).2).root l = some nd' ∧
        nd'.tag = nd.tag ∧ nd'.content = nd.content) ∧
    ((createFolder st p).1 = true →
      ∀ l, l ≠ [] → l <+: segs p → l ≠ segs p → elemGet st.root l = none →
        ∃ nd', elemGet ((createFolder st p).2).root l = some nd' ∧ nd'.tag = some true) ∧
    (∃ add, ((createFolder st p).2).log = st.log ++ add ∧
      ((createFolder st p).1 = true → ∃ add', add = add' ++ [p])) := by
  intro n
  induction n with
  | zero => intro p h; exact absurd h (Nat.not_lt_zero _)
  | succ m ih =>
    intro p hlen st hr
    rw [createFolder_eq st p]
    cases he : existsB st p with
    | true =>
      rw [if_pos rfl]
      refine ⟨by simp, ?_, ?_, ?_, ?_⟩
      · intro h
        cases h
      · intro l nd h
        exact ⟨nd, h, rfl, rfl⟩
      · intro h
        cases h
      · refine ⟨[], by simp, ?_⟩
        intro h
        cases h
    | false =>
      rw [if_neg (by simp)]
      have hmiss : elemGet st.root (segs p) = none := not_exists_elemGet he
      cases hgp : getParent p with
      | none =>
        have hpnil : p = [] := by
          rcases hr with rfl | ⟨q, rfl⟩
          · rfl
          · obtain ⟨par, hpar, -, -⟩ := getParent_rooted (Or.inr ⟨q, rfl⟩) (by simp)
            rw [hpar] at hgp
            cases hgp
        subst hpnil
        simp only []
        refine ⟨by simp, ?_, ?_, ?_, ?_⟩
        · intro _
          rw [setElement_root, elemGet_elemSet_self]
        · intro l nd h
          obtain ⟨nd', h', ht, hc⟩ := elemSet_preserves hmiss (some folderNode) l nd h
          exact ⟨nd', by rw [setElement_root]; exact h', ht, hc⟩
        · intro _ l hl hpre hne _
          exact absurd (List.prefix_nil.mp (by simpa [segs, splitOnChar] using hpre)) hl
        · exact ⟨[[]], by rw [setElement_log], fun _ => ⟨[], rfl⟩⟩
      | some par =>
        simp only []
        have hpne : p ≠ [] := by
          intro h
          subst h
          simp [getParent, lastIndexOf] at hgp
        obtain ⟨par', hpar', hrootedpar, hsegs⟩ := getParent_rooted hr hpne
        rw [hgp] at hpar'
        obtain rfl : par = par' := by injection hpar'
        have hsegsp : segs p ≠ [] := segs_ne_nil_of_rooted hr hpne
        by_cases hparnil : par = []
        · rw [if_pos hparnil]
          refine ⟨by simp, ?_, ?_, ?_, ?_⟩
          · intro _
            rw [setElement_root, elemGet_elemSet_self]
          · intro l nd h
            obtain ⟨nd', h', ht, hc⟩ := elemSet_preserves hmiss (some folderNode) l nd h
            exact ⟨nd', by rw [setElement_root]; exact h', ht, hc⟩
          · intro _ l hl hpre hne _
            have h1 : l <+: (segs p).dropLast := prefix_dropLast hpre hne
            rw [← hsegs, hparnil] at h1
            exact absurd (List.prefix_nil.mp (by simpa [segs, splitOnChar] using h1)) hl
          · exact ⟨[p], by rw [setElement_log], fun _ => ⟨[], rfl⟩⟩
        · rw [if_neg hparnil]
          have hparlen : par.length < m := by
            have h1 : par.length < p.length := getParent_length hgp
            omega
          obtain ⟨ih1, ih2, ih3, ih4, ih5⟩ := ih par hparlen st hrootedpar
          have hmissm : elemGet ((createFolder st par).2).root (segs p) = none := by
            cases hres : (createFolder st par).1 with
            | false =>
              rw [createFolder_fail hres]
              exact hmiss
            | true =>
              have h2 := ih2 hres
              have hsplit : segs p = (segs p).dropLast ++ [(segs p).getLast hsegsp] :=
                (List.dropLast_append_getLast hsegsp).symm
              rw [hsplit, elemGet_append, ← hsegs, h2, elemGet_cons_some]
              simp [folderNode, Node.files_mk, lookupN, elemGet_none]
          refine ⟨by simp, ?_, ?_, ?_, ?_⟩
          · intro _
            rw [setElement_root, elemGet_elemSet_self]
          · intro l nd h
            obtain ⟨nd1, h1, ht1, hc1⟩ := ih3 l nd h
            obtain ⟨nd2, h2, ht2, hc2⟩ :=
              elemSet_preserves hmissm (some folderNode) l nd1 h1
            exact ⟨nd2, by rw [setElement_root]; exact h2, by rw [ht2, ht1],
              by rw [hc2, hc1]⟩
          · intro _ l hl hpre hne hmissl
            have hpreDL : l <+: segs par := by
              rw [hsegs]
              exact prefix_dropLast hpre hne
            cases hres : (createFolder st par).1 with
            | false =>
              have hex : existsB st par = true := by
                rw [hres] at ih1
                cases hexx : existsB st par with
                | true => rfl
                | false => rw [hexx] at ih1; simp at ih1
              obtain ⟨t, ht⟩ := hpreDL
              rw [existsB_eq_isSome, ← ht] at hex
              have := elemGet_isSome_of_append hex
              rw [hmissl] at this
              cases this
            | true =>
              by_cases hlpar : l = segs par
              · obtain ⟨nd2, h2, ht2, hc2⟩ :=
                  elemSet_preserves hmissm (some folderNode) l folderNode
                    (by rw [hlpar]; exact ih2 hres)
                exact ⟨nd2, by rw [setElement_root]; exact h2, by rw [ht2]; rfl⟩
              · obtain ⟨nd1, h1, ht1⟩ := ih4 hres l hl hpreDL hlpar hmissl
                obtain ⟨nd2, h2, ht2, hc2⟩ :=
                  elemSet_preserves hmissm (some folderNode) l nd1 h1
                exact ⟨nd2, by rw [setElement_root]; exact h2, by rw [ht2, ht1]⟩
          · obtain ⟨add0, hlog0, -⟩ := ih5
            exact ⟨add0 ++ [p],
              by rw [setElement_log, hlog0, List.append_assoc], fun _ => ⟨add0, rfl⟩⟩

/-- Behaviour of the parent-materialization stage shared by
`createFolder` and `createFile` (`parent && this.createFolder(parent)`),
on a rooted, not-yet-existing path: the path itself is still missing
afterwards, existing nodes keep tag and content, missing strict
non-root ancestors have become folders, and the log only grew. -/
theorem parentStage_spec {T : Type} {st st1 : FS T} {p : FPath} (hr : Rooted p)
    (he : existsB st p = false)
    (h1 : st1 = (match getParent p with
      | none => st
      | some par => if par = [] then st else (createFolder st par).2)) :
    elemGet st1.root (segs p) = none ∧
    (∀ l (nd : Node T), elemGet st.root l = some nd →
      ∃ nd', elemGet st1.root l = some nd' ∧ nd'.tag = nd.tag ∧ nd'.content = nd.content) ∧
    (∀ l, l ≠ [] → l <+: segs p → l ≠ segs p → elemGet st.root l = none →
      ∃ nd', elemGet st1.root l = some nd' ∧ nd'.tag = some true) ∧
    (∃ add, st1.log = st.log ++ add) := by
  have hmiss : elemGet st.root (segs p) = none := not_exists_elemGet he
  cases hgp : getParent p with
  | none =>
    rw [hgp] at h1
    subst h1
    have hpnil : p = [] := by
      rcases hr with rfl | ⟨q, rfl⟩
      · rfl
      · obtain ⟨par, hpar, -, -⟩ := getParent_rooted (Or.inr ⟨q, rfl⟩) (by simp)
        rw [hpar] at hgp
        cases hgp
    subst hpnil
    refine ⟨hmiss, fun l nd h => ⟨nd, h, rfl, rfl⟩, ?_, ⟨[], by simp⟩⟩
    intro l hl hpre hne _
    exact absurd (List.prefix_nil.mp (by simpa [segs, splitOnChar] using hpre)) hl
  | some par =>
    rw [hgp] at h1
    have hpne : p ≠ [] := by
      intro h
      subst h
      simp [getParent, lastIndexOf] at hgp
    obtain ⟨par', hpar', hrootedpar, hsegs⟩ := getParent_rooted hr hpne
    rw [hgp] at hpar'
    obtain rfl : par = par' := by injection hpar'
    have hsegsp : segs p ≠ [] := segs_ne_nil_of_rooted hr hpne
    have h1' : st1 = if par = [] then st else (createFolder st par).2 := h1
    by_cases hparnil : par = []
    · rw [if_pos hparnil] at h1'
      subst h1'
      refine ⟨hmiss, fun l nd h => ⟨nd, h, rfl, rfl⟩, ?_, ⟨[], by simp⟩⟩
      intro l hl hpre hne _
      have h2 : l <+: (segs p).dropLast := prefix_dropLast hpre hne
      rw [← hsegs, hparnil] at h2
      exact absurd (List.prefix_nil.mp (by simpa [segs, splitOnChar] using h2)) hl
    · rw [if_neg hparnil] at h1'
      subst h1'
      obtain ⟨ih1, ih2, ih3, ih4, ih5⟩ :=
        createFolder_spec (par.length + 1) par (Nat.lt_succ_self _) st hrootedpar
      have hmissm : elemGet ((createFolder st par).2).root (segs p) = none := by
        cases hres : (createFolder st par).1 with
        | false =>
          rw [createFolder_fail hres]
          exact hmiss
        | true =>
          have h2 := ih2 hres
          have hsplit : segs p = (segs p).dropLast ++ [(segs p).getLast hsegsp] :=
            (List.dropLast_append_getLast hsegsp).symm
          rw [hsplit, elemGet_append, ← hsegs, h2, elemGet_cons_some]
          simp [folderNode, Node.files_mk, lookupN, elemGet_none]
      refine ⟨hmissm, ih3, ?_, ?_⟩
      · intro l hl hpre hne hmissl
        have hpreDL : l <+: segs par := by
          rw [hsegs]
          exact prefix_dropLast hpre hne
        cases hres : (createFolder st par).1 with
        | false =>
          have hex : existsB st par = true := by
            rw [hres] at ih1
            cases hexx : existsB st par with
            | true => rfl
            | false => rw [hexx] at ih1; simp at ih1
          obtain ⟨t, ht⟩ := hpreDL
          rw [existsB_eq_isSome, ← ht] at hex
          have h3 := elemGet_isSome_of_append hex
          rw [hmissl] at h3
          cases h3
        | true =>
          by_cases hlpar : l = segs par
          · exact ⟨folderNode, by rw [hlpar]; exact ih2 hres, rfl⟩
          · exact ih4 hres l hl hpreDL hlpar hmissl
      · obtain ⟨add0, hlog0, -⟩ := ih5
        exact ⟨add0, hlog0⟩

theorem createFile_eq {T : Type} (st : FS T) (p : FPath) (t : T) :
    createFile st p t =
      if existsB st p then (false, st)
      else (true, setElement
        (match getParent p with
          | none => st
          | some par => if par = [] then st else (createFolder st par).2) p
        (some (fileNode t))) := rfl

theorem dotfree_of_prefix_segs {p : FPath} {l : List (List Char)} (hr : Rooted p)
    (hpre : l <+: segs p) : ∀ s ∈ l, '.' ∉ s := by
  rcases hr with rfl | ⟨q, rfl⟩
  · have hnil : l = [] := List.prefix_nil.mp (by simpa [segs, splitOnChar] using hpre)
    subst hnil
    simp
  · intro s hs
    rw [segs_cons_dot] at hpre
    exact not_mem_of_mem_splitOnChar '.' q s (hpre.subset hs)

/-- C5 (amended): `createFolder` and `createFile` fail exactly when a
node exists at the path; on success they write an empty folder node
(resp. a file node with the content, which `getData` then returns),
fire a notification for the path as the last one of the call, and
materialize every missing strict non-root ancestor as a folder (the
root itself is never materialized as a folder by them — see the
counterexample).  A second `createFile` at the same path fails and
changes nothing. -/
theorem C5_create_semantics {T : Type} (st : FS T) (p : FPath) (t t' : T)
    (hr : Rooted p) :
    ((createFolder st p).1 = !existsB st p) ∧
    ((createFile st p t).1 = !existsB st p) ∧
    ((createFolder st p).1 = true →
      elemGet ((createFolder st p).2).root (segs p) = some folderNode ∧
      (∃ pre, ((createFolder st p).2).log = st.log ++ pre ++ [p]) ∧
      (∀ l, l ≠ [] → l <+: segs p → l ≠ segs p → elemGet st.root l = none →
        isFolder (createFolder st p).2 (joinSegs l) = true)) ∧
    ((createFile st p t).1 = true →
      elemGet ((createFile st p t).2).root (segs p) = some (fileNode t) ∧
      getData (createFile st p t).2 p = some t ∧
      (∃ pre, ((createFile st p t).2).log = st.log ++ pre ++ [p]) ∧
      (∀ l, l ≠ [] → l <+: segs p → l ≠ segs p → elemGet st.root l = none →
        isFolder (createFile st p t).2 (joinSegs l) = true) ∧
      (createFile ((createFile st p t).2) p t').1 = false ∧
      (createFile ((createFile st p t).2) p t').2 = (createFile st p t).2) := by
  refine ⟨(createFolder_spec (p.length + 1) p (Nat.lt_succ_self _) st hr).1, ?_, ?_, ?_⟩
  · rw [createFile_eq]
    cases he : existsB st p <;> simp [he]
  · intro hs
    have he : existsB st p = false := by
      have h1 := (createFolder_spec (p.length + 1) p (Nat.lt_succ_self _) st hr).1
      rw [hs] at h1
      cases hexx : existsB st p with
      | true => rw [hexx] at h1; simp at h1
      | false => rfl
    obtain ⟨pmiss, ppres, pmat, add, plog⟩ := parentStage_spec hr he rfl
    rw [createFolder_eq, if_neg (by simp [he])]
    refine ⟨?_, ?_, ?_⟩
    · rw [setElement_root, elemGet_elemSet_self]
    · exact ⟨add, by rw [setElement_log, plog, List.append_assoc]⟩
    · intro l hl hpre hne hmissl
      obtain ⟨nd', h', ht'⟩ := pmat l hl hpre hne hmissl
      obtain ⟨nd'', h'', ht'', -⟩ := elemSet_preserves pmiss (some folderNode) l nd' h'
      rw [isFolder_eq, segs_joinSegs (dotfree_of_prefix_segs hr hpre), setElement_root]
      simp [h'', ht'', ht']
  · intro hs
    have he : existsB st p = false := by
      rw [createFile_eq] at hs
      cases hexx : existsB st p with
      | true => rw [if_pos hexx] at hs; cases hs
      | false => rfl
    obtain ⟨pmiss, ppres, pmat, add, plog⟩ := parentStage_spec hr he rfl
    rw [createFile_eq, if_neg (by simp [he])]
    have hget : elemGet ((setElement (match getParent p with
        | none => st
        | some par => if par = [] then st else (createFolder st par).2) p
        (some (fileNode t))).root) (segs p) = some (fileNode t) := by
      rw [setElement_root, elemGet_elemSet_self]
    refine ⟨hget, ?_, ?_, ?_, ?_, ?_⟩
    · rw [getData_eq, hget]
      rfl
    · exact ⟨add, by rw [setElement_log, plog, List.append_assoc]⟩
    · intro l hl hpre hne hmissl
      obtain ⟨nd', h', ht'⟩ := pmat l hl hpre hne hmissl
      obtain ⟨nd'', h'', ht'', -⟩ := elemSet_preserves pmiss (some (fileNode t)) l nd' h'
      rw [isFolder_eq, segs_joinSegs (dotfree_of_prefix_segs hr hpre), setElement_root]
      simp [h'', ht'', ht']
    · rw [createFile_eq, if_pos (by rw [existsB_eq_isSome, hget]; rfl)]
    · rw [createFile_eq, if_pos (by rw [existsB_eq_isSome, hget]; rfl)]

/-- C5 counterexample: on the empty store, `createFolder(".a")`
succeeds, and the missing ancestor `""` (the root) afterwards exists —
the deep store write materialized a plain object for it — but is not a
folder node (nor a file): the missing root ancestor is not materialized
as a folder, because `parent && createFolder(parent)` skips the falsy
empty string. -/
theorem C5_counterexample :
    existsB (emptyFS (T := Nat)) [] = false ∧
    (createFolder (emptyFS (T := Nat)) ['.', 'a']).1 = true ∧
    existsB (createFolder (emptyFS (T := Nat)) ['.', 'a']).2 [] = true ∧
    isFolder (createFolder (emptyFS (T := Nat)) ['.', 'a']).2 [] = false ∧
    isFile (createFolder (emptyFS (T := Nat)) ['.', 'a']).2 [] = false := by
  refine ⟨by decide, ?_, ?_, ?_, ?_⟩ <;> rw [createFolder_eq] <;> decide

/-- Concrete store for the C5 witness: just the root folder. -/
def st5w : FS Nat := { root := some folderNode, log := [] }

theorem C5_witness :
    elemGet ((createFolder st5w ['.', 'a']).2).root (segs ['.', 'a']) = some folderNode ∧
    isFolder (createFile st5w ['.', 'a', '.', 'b'] 4).2 (joinSegs [['a']]) = true ∧
    getData (createFile st5w ['.', 'a', '.', 'b'] 4).2 ['.', 'a', '.', 'b'] = some 4 ∧
    (createFile ((createFile st5w ['.', 'a', '.', 'b'] 4).2) ['.', 'a', '.', 'b'] 6).1
      = false := by
  have hfolder := (C5_create_semantics st5w ['.', 'a'] 0 0 (Or.inr ⟨['a'], rfl⟩)).2.2.1
    (by rw [createFolder_eq]; decide)
  have hfile := (C5_create_semantics st5w ['.', 'a', '.', 'b'] 4 6
    (Or.inr ⟨['a', '.', 'b'], rfl⟩)).2.2.2 (by decide)
  exact ⟨hfolder.1, hfile.2.2.2.1 [['a']] (by decide) (by decide) (by decide) rfl,
    hfile.2.1, hfile.2.2.2.2.1⟩
